import Mathlib

/-!
Verification of the Papersearch wallpaper-index engine.

This file shallowly embeds the core of the repository:
  * `find_wallpaper.py` — `find_best_match`, the nearest-match scan;
  * `index_zip.py` — `index_zip`, `index_folder`, the standalone `main`;
  * `wallpaper_tray_app.py` — `index_source`, `WallpaperGUI.change_source`.

Filesystem and library effects are made explicit:
  * a database row of the `images` table is a `Row`;
  * the content of a candidate image is abstracted by the outcome of
    decoding-and-hashing it (`Option Nat`, `none` meaning the bytes do not
    decode to a raster image), since `PIL` + `imagehash.phash` are external;
  * `imagehash`'s `ImageHash.__sub__` is the Hamming distance of the two
    64-bit bit vectors (`hamming64`), and `imagehash.hex_to_hash`
    followed by the shape check of `__sub__` against the 64-bit reference
    hash succeeds exactly on 16-character hex strings (`hex_to_hash`);
  * sqlite3's implicit-transaction behaviour (INSERTs are pending until
    `conn.commit()` publishes them) is the interpreter `applyOps`.
-/

/-- One row of the sqlite `images` table
(`source_type, source_path, file_name, phash` columns; the autoincrement
`id` carries no information used by the code). -/
structure Row where
  source_type : String
  source_path : String
  file_name : String
  phash : String
deriving DecidableEq, Repr

/-- The triple `(source_type, source_path, file_name)` that
`find_best_match` returns as `best`. -/
structure BestMatch where
  source_type : String
  source_path : String
  file_name : String
deriving DecidableEq, Repr

/-- A ZIP entry as seen by the indexing loop: its internal name, and the
outcome of `zf.read` + `phash_image_from_bytes` on its bytes (`none`:
the entry is corrupt / not a decodable image, the `except` path). -/
structure ZipEntry where
  filename : String
  phash : Option Nat
deriving DecidableEq, Repr

/-- A filesystem object yielded by `folder.rglob("*")`: its path relative
to the folder root as components, whether it is a regular file, and the
outcome of `phash_image` on it (`none`: decode failure, the `except`
path). -/
structure FileEntry where
  relComponents : List String
  is_file : Bool
  phash : Option Nat
deriving DecidableEq, Repr

/-- `IMAGE_EXTS = {".jpg", ".jpeg", ".png", ".bmp", ".gif", ".webp"}`. -/
def IMAGE_EXTS : List String := [".jpg", ".jpeg", ".png", ".bmp", ".gif", ".webp"]

/-- Position of the last `.` in a list of characters, if any. -/
def lastDotPos : List Char → Option Nat
  | [] => none
  | c :: cs =>
    match lastDotPos cs with
    | some i => some (i + 1)
    | none => if c = '.' then some 0 else none

/-- A path separator as `pathlib` parses it on the platform the program
targets (Windows accepts both `/` and the backslash). -/
def isSep (c : Char) : Bool := c = '/' || c = '\\'

/-- Split a character list at path separators. -/
def splitSep : List Char → List (List Char)
  | [] => [[]]
  | c :: cs =>
    let r := splitSep cs
    if isSep c then [] :: r
    else (c :: r.headD []) :: r.tail

/-- `pathlib.PurePath(name).name` as a character list: the last non-empty
path component (`pathlib` drops empty components, so trailing separators
are ignored). -/
def path_name (name : String) : List Char :=
  ((splitSep name.data).filter (fun p => p ≠ ([] : List Char))).getLastD []

/-- `pathlib.PurePath(name).suffix`: the extension (with its dot) of the
final path component; empty when that component has no dot, starts with
its only dot, or ends with it (CPython: the last `.` at index `i` yields
a suffix iff `0 < i < len(name) - 1`). -/
def path_suffix (name : String) : String :=
  let base := path_name name
  match lastDotPos base with
  | none => ""
  | some i => if 0 < i ∧ i + 1 < base.length then String.mk (base.drop i) else ""

/-- Python `str.lower()` restricted to the ASCII range, which is all the
allow-list comparison ever meets. -/
def lowerStr (s : String) : String := String.mk (s.data.map Char.toLower)

/-- Hamming distance of the low 64 bits of two fingerprints: the number
of differing bit positions. This is `imagehash.ImageHash.__sub__` for two
8×8 hashes (it counts the differing entries of the two flattened boolean
arrays). -/
def hamming64 (a b : Nat) : Nat :=
  (List.range 64).countP (fun i => a.testBit i != b.testBit i)

/-- Value of a hex digit (`0-9`, `a-f`, `A-F`). -/
def hexVal (c : Char) : Nat :=
  if c.isDigit then c.toNat - 48
  else if 'a' ≤ c then c.toNat - 87
  else c.toNat - 55

/-- Is `c` a hex digit? -/
def isHexDigit (c : Char) : Bool :=
  c.isDigit || ('a' ≤ c && c ≤ 'f') || ('A' ≤ c && c ≤ 'F')

/-- Big-endian hex-string value, `int(hexstr, 16)`. -/
def hexToNat (s : String) : Nat :=
  s.data.foldl (fun acc c => 16 * acc + hexVal c) 0

/-- `imagehash.hex_to_hash(phash_hex)` followed by the shape check of
`wall_hash - stored_hash` against the 64-bit reference hash: it yields a
64-bit fingerprint exactly when the stored string is 16 hex characters;
any other string makes the `try` block raise (bad hex digit, wrong
length, or an 8×8-vs-other shape mismatch in `__sub__`) and the row is
skipped. -/
def hex_to_hash (s : String) : Option Nat :=
  if s.data.length = 16 ∧ s.data.all isHexDigit then some (hexToNat s) else none

/-- The `i`-th hex digit character (lowercase), `imagehash`'s encoding. -/
def hexDigitChar (n : Nat) : Char :=
  if n < 10 then Char.ofNat (48 + n) else Char.ofNat (87 + n)

/-- `str(h)` for an 8×8 `ImageHash`: the 16-character lowercase hex
encoding of the 64-bit fingerprint. -/
def natToHex16 (h : Nat) : String :=
  String.mk ((List.range 16).map (fun i => hexDigitChar (h / 16 ^ (15 - i) % 16)))

/-- The body of the `for ... in rows` loop of `find_best_match`: decode
the stored hex fingerprint and compare with `dist < best_dist` (strict,
so an equal distance keeps the earlier row); a row whose fingerprint does
not decode is skipped by the `except` clause. -/
def bestStep (wall : Nat) (acc : Option BestMatch × Nat) (r : Row) :
    Option BestMatch × Nat :=
  match hex_to_hash r.phash with
  | none => acc
  | some h =>
    if hamming64 wall h < acc.2 then
      (some ⟨r.source_type, r.source_path, r.file_name⟩, hamming64 wall h)
    else acc

/-- The `best` triple `find_best_match` builds from a row. -/
def matchOf (r : Row) : BestMatch := ⟨r.source_type, r.source_path, r.file_name⟩

/-- `find_best_match` (identical in `find_wallpaper.py` and
`wallpaper_tray_app.py`): scan all rows of the `images` table, starting
from `best = None`, `best_dist = 10**9`, and return `(best, best_dist)`.
`wall` is the fingerprint `phash_image(TRANSCODED)` of the reference
wallpaper, `rows` the result of `SELECT ... FROM images`. -/
def find_best_match (wall : Nat) (rows : List Row) : Option BestMatch × Nat :=
  rows.foldl (bestStep wall) (none, 10 ^ 9)

/-- The records the `index_zip` loop inserts, in loop order: for each ZIP
entry, `continue` unless `Path(name).suffix.lower()` is in `IMAGE_EXTS`;
then `try` to read and hash the bytes — on failure `continue`, on success
`INSERT (\x27zip\x27, str(zip_path), name, str(h))`. -/
def zipRecords (zip_path : String) (entries : List ZipEntry) : List Row :=
  entries.filterMap (fun e =>
    if lowerStr (path_suffix e.filename) ∈ IMAGE_EXTS then
      e.phash.map (fun h =>
        { source_type := "zip", source_path := zip_path,
          file_name := e.filename, phash := natToHex16 h })
    else none)

/-- `index_zip(zip_path)` (`index_zip.py`, and the `"zip"` branch of
`index_source`): appends the pass's records to the rows already in the
`images` table and commits. -/
def index_zip (zip_path : String) (entries : List ZipEntry) (store : List Row) :
    List Row :=
  store ++ zipRecords zip_path entries

/-- The filter of the `index_folder` loop: skip non-files and files whose
lowercased extension is not in `IMAGE_EXTS`. -/
def keepFile (f : FileEntry) : Bool :=
  f.is_file && decide (lowerStr (path_suffix (f.relComponents.getLastD "")) ∈ IMAGE_EXTS)

/-- The records the `index_folder` loop inserts, in `rglob` order: for
each enumerated path, `continue` unless it is a regular file with an
allow-listed extension; `try` to hash it — on failure `continue`, on
success `INSERT (\x27folder\x27, str(folder), str(path.relative_to(folder)), str(h))`.
`sep` is the platform path separator that `str` renders a relative
`Path` with (`\x5c` on Windows, `/` on POSIX). -/
def folderRecords (sep folder : String) (files : List FileEntry) : List Row :=
  files.filterMap (fun f =>
    if keepFile f then
      f.phash.map (fun h =>
        { source_type := "folder", source_path := folder,
          file_name := String.intercalate sep f.relComponents, phash := natToHex16 h })
    else none)

/-- `index_folder(folder)` (`index_zip.py`, and the non-`"zip"` branch of
`index_source`): appends the pass's records to the rows already in the
`images` table and commits. -/
def index_folder (sep folder : String) (files : List FileEntry) (store : List Row) :
    List Row :=
  store ++ folderRecords sep folder files

/-- `init_db()`: `CREATE TABLE IF NOT EXISTS` plus `CREATE INDEX IF NOT
EXISTS` — existing rows are preserved. -/
def init_db (store : List Row) : List Row := store

/-- The source the user picks in the file dialogs, together with what the
filesystem holds at that path (the contents a `ZipFile` / `rglob` pass
would enumerate). -/
inductive SourceChoice where
  | zip (path : String) (entries : List ZipEntry)
  | folder (sep path : String) (files : List FileEntry)
deriving DecidableEq, Repr

/-- One run of `index_zip.py`'s `main` after a source was picked:
`init_db()` (which preserves existing rows), then `index_zip` or
`index_folder` on the chosen source. No step deletes prior rows. -/
def index_zip_main (choice : SourceChoice) (store : List Row) : List Row :=
  match choice with
  | .zip p es => index_zip p es (init_db store)
  | .folder sep p fs => index_folder sep p fs (init_db store)

/-- `index_source(source_type, source_path)` (`wallpaper_tray_app.py`):
`init_db()`, then the ZIP loop when `source_type == "zip"`, else the
folder walk. `zipEntries` / `files` are what the filesystem holds at
`source_path` for the respective interpretation. -/
def index_source (source_type source_path : String) (zipEntries : List ZipEntry)
    (sep : String) (files : List FileEntry) (store : List Row) : List Row :=
  if source_type = "zip" then index_zip source_path zipEntries (init_db store)
  else index_folder sep source_path files (init_db store)

/-- `WallpaperGUI.change_source` after a new source was picked: saves the
settings, `DB_PATH.unlink()` if the database file exists (dropping every
prior row), then runs `index_source` on the new selection. -/
def change_source (source_type source_path : String) (zipEntries : List ZipEntry)
    (sep : String) (files : List FileEntry) (_store : List Row) : List Row :=
  index_source source_type source_path zipEntries sep files []

/-- A statement the indexing pass sends to sqlite: an `INSERT`, or the
final `conn.commit()`. -/
inductive DBOp where
  | insert (r : Row)
  | commit
deriving DecidableEq, Repr

/-- sqlite3 connection semantics (default isolation level): the state is
`(committed, pending)`; an `INSERT` joins the implicit transaction's
pending rows, `commit` publishes them. Rows visible to other connections
— and surviving an abandoned connection — are exactly `committed`. -/
def applyOps : List DBOp → List Row × List Row → List Row × List Row
  | [], s => s
  | DBOp.insert r :: ops, (committed, pending) => applyOps ops (committed, pending ++ [r])
  | DBOp.commit :: ops, (committed, pending) => applyOps ops (committed ++ pending, [])

/-- The statement trace of one `index_zip` pass: one `INSERT` per kept
entry, then the single `conn.commit()` after the loop. -/
def zipOps (zip_path : String) (entries : List ZipEntry) : List DBOp :=
  (zipRecords zip_path entries).map DBOp.insert ++ [DBOp.commit]

/-- The statement trace of one `index_folder` pass: one `INSERT` per kept
file, then the single `conn.commit()` after the loop. -/
def folderOps (sep folder : String) (files : List FileEntry) : List DBOp :=
  (folderRecords sep folder files).map DBOp.insert ++ [DBOp.commit]

theorem hamming64_self (a : Nat) : hamming64 a a = 0 := by
  unfold hamming64
  rw [List.countP_eq_zero]
  intro i _
  simp

theorem hamming64_comm (a b : Nat) : hamming64 a b = hamming64 b a := by
  unfold hamming64
  apply List.countP_congr
  intro i _
  constructor <;> intro h <;> cases ha : a.testBit i <;> cases hb : b.testBit i <;>
    simp_all

theorem hamming64_le (a b : Nat) : hamming64 a b ≤ 64 := by
  have h := List.countP_le_length (l := List.range 64)
      (p := fun i => a.testBit i != b.testBit i)
  simpa using h

/-- C7: the fingerprint distance used by the matcher is symmetric,
zero on equal fingerprints, and bounded by the bit width: for all 64-bit
fingerprints `a`, `b`, `distance(a,b) = distance(b,a)`,
`distance(a,a) = 0`, and `0 ≤ distance(a,b) ≤ 64`. -/
theorem hamming64_props (a b : Nat) (ha : a < 2 ^ 64) (hb : b < 2 ^ 64) :
    hamming64 a b = hamming64 b a ∧ hamming64 a a = 0 ∧
      0 ≤ hamming64 a b ∧ hamming64 a b ≤ 64 :=
  ⟨hamming64_comm a b, hamming64_self a, Nat.zero_le _, hamming64_le a b⟩

theorem hamming64_props_witness :
    (3 < 2 ^ 64 ∧ 5 < 2 ^ 64) ∧
      (hamming64 3 5 = hamming64 5 3 ∧ hamming64 3 3 = 0 ∧
        0 ≤ hamming64 3 5 ∧ hamming64 3 5 ≤ 64) :=
  ⟨⟨by norm_num, by norm_num⟩, hamming64_props 3 5 (by norm_num) (by norm_num)⟩

theorem bestFold_const_of_undecodable (wall : Nat) (rows : List Row)
    (hall : ∀ r ∈ rows, hex_to_hash r.phash = none) :
    ∀ acc, rows.foldl (bestStep wall) acc = acc := by
  induction rows with
  | nil => intro acc; rfl
  | cons r0 rs ih =>
    intro acc
    rw [List.foldl_cons]
    have h0 : hex_to_hash r0.phash = none := hall r0 (by simp)
    have hstep : bestStep wall acc r0 = acc := by unfold bestStep; rw [h0]
    rw [hstep]
    exact ih (fun r hr => hall r (by simp [hr])) acc

theorem bestFold_spec (wall : Nat) (rows : List Row) :
    ∀ acc : Option BestMatch × Nat,
      (rows.foldl (bestStep wall) acc).2 ≤ acc.2 ∧
      (∀ r ∈ rows, ∀ h, hex_to_hash r.phash = some h →
        (rows.foldl (bestStep wall) acc).2 ≤ hamming64 wall h) ∧
      (rows.foldl (bestStep wall) acc = acc ∧
         (∀ r ∈ rows, ∀ h, hex_to_hash r.phash = some h → acc.2 ≤ hamming64 wall h) ∨
       ∃ l₁ r l₂ h, rows = l₁ ++ r :: l₂ ∧ hex_to_hash r.phash = some h ∧
         rows.foldl (bestStep wall) acc = (some (matchOf r), hamming64 wall h) ∧
         hamming64 wall h < acc.2 ∧
         ∀ r2 ∈ l₁, ∀ h2, hex_to_hash r2.phash = some h2 →
           hamming64 wall h < hamming64 wall h2) := by
  induction rows with
  | nil =>
    intro acc
    exact ⟨le_refl _, by simp, Or.inl ⟨rfl, by simp⟩⟩
  | cons r0 rs ih =>
    intro acc
    rw [List.foldl_cons]
    cases hd : hex_to_hash r0.phash with
    | none =>
      have hstep : bestStep wall acc r0 = acc := by unfold bestStep; rw [hd]
      rw [hstep]
      obtain ⟨ih1, ih2, ih3⟩ := ih acc
      refine ⟨ih1, ?_, ?_⟩
      · intro r hr h hh
        rcases List.mem_cons.mp hr with rfl | hr
        · rw [hd] at hh; exact Option.noConfusion hh
        · exact ih2 r hr h hh
      · rcases ih3 with ⟨heq, hall⟩ | ⟨l₁, r, l₂, h, hdecomp, hsome, heq, hlt, hmin⟩
        · refine Or.inl ⟨heq, ?_⟩
          intro r hr h hh
          rcases List.mem_cons.mp hr with rfl | hr
          · rw [hd] at hh; exact Option.noConfusion hh
          · exact hall r hr h hh
        · refine Or.inr ⟨r0 :: l₁, r, l₂, h, by simp [hdecomp], hsome, heq, hlt, ?_⟩
          intro r2 hr2 h2 hh2
          rcases List.mem_cons.mp hr2 with rfl | hr2
          · rw [hd] at hh2; exact Option.noConfusion hh2
          · exact hmin r2 hr2 h2 hh2
    | some h0 =>
      by_cases hlt : hamming64 wall h0 < acc.2
      · have hstep : bestStep wall acc r0 =
            (some (matchOf r0), hamming64 wall h0) := by
          unfold bestStep; rw [hd]; exact if_pos hlt
        rw [hstep]
        obtain ⟨ih1, ih2, ih3⟩ := ih (some (matchOf r0), hamming64 wall h0)
        refine ⟨le_trans ih1 (le_of_lt hlt), ?_, ?_⟩
        · intro r hr h hh
          rcases List.mem_cons.mp hr with rfl | hr
          · rw [hd] at hh; injection hh with hh; subst hh; exact ih1
          · exact ih2 r hr h hh
        · rcases ih3 with ⟨heq, hall⟩ | ⟨l₁, r, l₂, h, hdecomp, hsome, heq, hlt2, hmin⟩
          · exact Or.inr ⟨[], r0, rs, h0, by simp, hd, heq, hlt, by simp⟩
          · refine Or.inr ⟨r0 :: l₁, r, l₂, h, by simp [hdecomp], hsome, heq,
              lt_trans hlt2 hlt, ?_⟩
            intro r2 hr2 h2 hh2
            rcases List.mem_cons.mp hr2 with rfl | hr2
            · rw [hd] at hh2; injection hh2 with hh2; subst hh2; exact hlt2
            · exact hmin r2 hr2 h2 hh2
      · have hstep : bestStep wall acc r0 = acc := by
          unfold bestStep; rw [hd]; exact if_neg hlt
        rw [hstep]
        obtain ⟨ih1, ih2, ih3⟩ := ih acc
        have hge : acc.2 ≤ hamming64 wall h0 := Nat.le_of_not_lt hlt
        refine ⟨ih1, ?_, ?_⟩
        · intro r hr h hh
          rcases List.mem_cons.mp hr with rfl | hr
          · rw [hd] at hh; injection hh with hh; subst hh; exact le_trans ih1 hge
          · exact ih2 r hr h hh
        · rcases ih3 with ⟨heq, hall⟩ | ⟨l₁, r, l₂, h, hdecomp, hsome, heq, hlt2, hmin⟩
          · refine Or.inl ⟨heq, ?_⟩
            intro r hr h hh
            rcases List.mem_cons.mp hr with rfl | hr
            · rw [hd] at hh; injection hh with hh; subst hh; exact hge
            · exact hall r hr h hh
          · refine Or.inr ⟨r0 :: l₁, r, l₂, h, by simp [hdecomp], hsome, heq, hlt2, ?_⟩
            intro r2 hr2 h2 hh2
            rcases List.mem_cons.mp hr2 with rfl | hr2
            · rw [hd] at hh2; injection hh2 with hh2; subst hh2
              exact lt_of_lt_of_le hlt2 hge
            · exact hmin r2 hr2 h2 hh2

/-- C1: on an index with at least one decodable fingerprint, the matcher
returns a record whose Hamming distance to the reference fingerprint is
minimal over all records with a decodable fingerprint, and among
equidistant minimal records it returns the earliest in scan order (every
decodable record strictly before the returned one has a strictly larger
distance). -/
theorem find_best_match_min_first_seen (wall : Nat) (rows : List Row)
    (hne : ∃ r ∈ rows, (hex_to_hash r.phash).isSome) :
    ∃ l₁ r l₂ h, rows = l₁ ++ r :: l₂ ∧ hex_to_hash r.phash = some h ∧
      find_best_match wall rows = (some (matchOf r), hamming64 wall h) ∧
      (∀ r2 ∈ rows, ∀ h2, hex_to_hash r2.phash = some h2 →
        hamming64 wall h ≤ hamming64 wall h2) ∧
      (∀ r2 ∈ l₁, ∀ h2, hex_to_hash r2.phash = some h2 →
        hamming64 wall h < hamming64 wall h2) := by
  obtain ⟨ra, hra, hsa⟩ := hne
  obtain ⟨haval, hha⟩ := Option.isSome_iff_exists.mp hsa
  obtain ⟨inv1, inv2, inv3⟩ := bestFold_spec wall rows (none, 10 ^ 9)
  rcases inv3 with ⟨heq, hall⟩ | ⟨l₁, r, l₂, h, hdecomp, hsome, heq, hlt, hmin⟩
  · exfalso
    have hbig : (10 ^ 9 : Nat) ≤ hamming64 wall haval := hall ra hra haval hha
    have hsmall : hamming64 wall haval ≤ 64 := hamming64_le wall haval
    have : (10 ^ 9 : Nat) = 1000000000 := by norm_num
    omega
  · refine ⟨l₁, r, l₂, h, hdecomp, hsome, heq, ?_, hmin⟩
    intro r2 hr2 h2 hh2
    have hle := inv2 r2 hr2 h2 hh2
    rw [heq] at hle
    exact hle

theorem find_best_match_min_first_seen_witness :
    (∃ r ∈ [Row.mk "zip" "p" "f" "0000000000000000"],
        (hex_to_hash r.phash).isSome) ∧
      (∃ l₁ r l₂ h,
        [Row.mk "zip" "p" "f" "0000000000000000"] = l₁ ++ r :: l₂ ∧
        hex_to_hash r.phash = some h ∧
        find_best_match 0 [Row.mk "zip" "p" "f" "0000000000000000"] =
          (some (matchOf r), hamming64 0 h) ∧
        (∀ r2 ∈ [Row.mk "zip" "p" "f" "0000000000000000"], ∀ h2,
          hex_to_hash r2.phash = some h2 → hamming64 0 h ≤ hamming64 0 h2) ∧
        (∀ r2 ∈ l₁, ∀ h2, hex_to_hash r2.phash = some h2 →
          hamming64 0 h < hamming64 0 h2)) :=
  ⟨by decide, find_best_match_min_first_seen 0 _ (by decide)⟩

/-- C4: if the index is empty, or no stored fingerprint decodes, the
matcher returns `None` as the match (and raises nothing: the scan is
total, every bad row is skipped). -/
theorem find_best_match_none_on_undecodable (wall : Nat) (rows : List Row)
    (hall : ∀ r ∈ rows, hex_to_hash r.phash = none) :
    (find_best_match wall rows).1 = none := by
  have h := bestFold_const_of_undecodable wall rows hall (none, 10 ^ 9)
  unfold find_best_match
  rw [h]

theorem find_best_match_none_on_undecodable_witness :
    (∀ r ∈ ([] : List Row), hex_to_hash r.phash = none) ∧
      (find_best_match 0 []).1 = none :=
  ⟨by simp, find_best_match_none_on_undecodable 0 [] (by simp)⟩

/-- C9: when no row yields a computable distance (empty index or only
malformed fingerprints), the matcher returns the pair
`(None, 10^9)` — the initial sentinel distance is exposed to the caller
together with the absent match. -/
theorem find_best_match_sentinel_pair (wall : Nat) (rows : List Row)
    (hall : ∀ r ∈ rows, hex_to_hash r.phash = none) :
    find_best_match wall rows = (none, 10 ^ 9) := by
  have h := bestFold_const_of_undecodable wall rows hall (none, 10 ^ 9)
  unfold find_best_match
  rw [h]

theorem find_best_match_sentinel_pair_witness :
    (∀ r ∈ [Row.mk "zip" "b" "c" "nothex"], hex_to_hash r.phash = none) ∧
      find_best_match 0 [Row.mk "zip" "b" "c" "nothex"] = (none, 10 ^ 9) :=
  ⟨by decide, find_best_match_sentinel_pair 0 _ (by decide)⟩

theorem length_filterMap_eq_countP {α β : Type} (g : α → Option β) (l : List α) :
    (l.filterMap g).length = l.countP (fun a => (g a).isSome) := by
  induction l with
  | nil => rfl
  | cons a l ih =>
    rw [List.filterMap_cons, List.countP_cons]
    cases hg : g a <;> simp [hg, ih]

/-- C2: an indexing pass over a source with `N` decodable allow-listed
images plus any number of corrupt or undecodable entries inserts exactly
`N` records — a per-entry decode failure (`phash = none`) skips only that
entry, never aborts the pass (the embedded passes are total functions),
for both the ZIP and the folder walk. -/
theorem index_skip_on_corruption (zp : String) (entries : List ZipEntry)
    (sep folder : String) (files : List FileEntry) :
    (index_zip zp entries []).length =
      entries.countP (fun e =>
        decide (lowerStr (path_suffix e.filename) ∈ IMAGE_EXTS) && e.phash.isSome) ∧
    (index_folder sep folder files []).length =
      files.countP (fun f => keepFile f && f.phash.isSome) := by
  constructor
  · rw [index_zip, List.nil_append, zipRecords, length_filterMap_eq_countP]
    apply List.countP_congr
    intro e _
    by_cases hext : lowerStr (path_suffix e.filename) ∈ IMAGE_EXTS
    · cases hph : e.phash <;> simp [hext, hph]
    · simp [hext]
  · rw [index_folder, List.nil_append, folderRecords, length_filterMap_eq_countP]
    apply List.countP_congr
    intro f _
    by_cases hk : keepFile f
    · cases hph : f.phash <;> simp [hk, hph]
    · simp [hk]

theorem zipRecords_map_file_name (zp : String) (entries : List ZipEntry) :
    (∀ e ∈ entries, e.phash.isSome) →
      (zipRecords zp entries).map Row.file_name =
        (entries.filter (fun e =>
          decide (lowerStr (path_suffix e.filename) ∈ IMAGE_EXTS))).map
            ZipEntry.filename := by
  induction entries with
  | nil => intro _; rfl
  | cons e es ih =>
    intro hdec
    have hde := hdec e (List.mem_cons_self e es)
    have hes : ∀ x ∈ es, x.phash.isSome :=
      fun x hx => hdec x (List.mem_cons_of_mem e hx)
    obtain ⟨h, hh⟩ := Option.isSome_iff_exists.mp hde
    by_cases hext : lowerStr (path_suffix e.filename) ∈ IMAGE_EXTS
    · simp only [zipRecords, List.filterMap_cons, List.filter_cons] at ih ⊢
      rw [hh]
      simp [hext, ih hes]
    · simp only [zipRecords, List.filterMap_cons, List.filter_cons] at ih ⊢
      simp [hext, ih hes]

/-- C5: indexing a ZIP inserts a record exactly for the entries whose
extension, lowercased, is in the fixed allow-list `IMAGE_EXTS`; other
entries are silently excluded. On a source whose entries all decode, the
inserted file names are exactly the allow-listed entry names, in order.
(The witness instantiates the spec scenario: a ZIP holding `img/1.jpg`
and `readme.txt` yields exactly one record, named `img/1.jpg`.) -/
theorem index_zip_ext_allowlist (zp : String) (entries : List ZipEntry)
    (hdec : ∀ e ∈ entries, e.phash.isSome) :
    (index_zip zp entries []).map Row.file_name =
      (entries.filter (fun e =>
        decide (lowerStr (path_suffix e.filename) ∈ IMAGE_EXTS))).map
          ZipEntry.filename := by
  rw [index_zip, List.nil_append]
  exact zipRecords_map_file_name zp entries hdec

theorem index_zip_ext_allowlist_witness :
    (∀ e ∈ [ZipEntry.mk "img/1.jpg" (some 5), ZipEntry.mk "readme.txt" (some 7)],
        e.phash.isSome) ∧
      (index_zip "wall.zip"
          [ZipEntry.mk "img/1.jpg" (some 5), ZipEntry.mk "readme.txt" (some 7)]
          []).map Row.file_name = ["img/1.jpg"] :=
  ⟨by decide,
    (index_zip_ext_allowlist "wall.zip"
      [ZipEntry.mk "img/1.jpg" (some 5), ZipEntry.mk "readme.txt" (some 7)]
      (by decide)).trans (by decide)⟩

/-- C6 counterexample: on the Windows platform this program targets,
`str(path.relative_to(folder))` joins the relative components with the
backslash, so the stored `entry_name` of a folder record is not the
forward-slash-normalized relative path: indexing a folder holding
`img/1.jpg` stores `entry_name` `img\x5c1.jpg`, which differs from
`img/1.jpg`. -/
theorem index_folder_not_posix_counterexample :
    (index_folder "\\" "C:\\Wallpapers"
        [FileEntry.mk ["img", "1.jpg"] true (some 3)] []).map Row.file_name =
      ["img\\1.jpg"] ∧ ("img\\1.jpg" : String) ≠ "img/1.jpg" := by
  constructor
  · decide
  · decide

/-- C6 amended: every record produced by indexing a Directory source
stores as `entry_name` the image path relative to the source root joined
with the platform path separator (`str` of a relative `Path`); it is the
forward-slash-normalized form only on platforms whose separator is `/`,
not regardless of platform. -/
theorem index_folder_entry_name_sep (sep folder : String) (files : List FileEntry) :
    (index_folder sep folder files []).map Row.file_name =
      (files.filter (fun f => keepFile f && f.phash.isSome)).map
        (fun f => String.intercalate sep f.relComponents) := by
  rw [index_folder, List.nil_append, folderRecords]
  induction files with
  | nil => rfl
  | cons f fs ih =>
    rw [List.filterMap_cons, List.filter_cons]
    by_cases hk : keepFile f
    · cases hph : f.phash <;> simp [hk, hph, ih]
    · simp [hk, ih]

theorem zipRecords_source (zp : String) (es : List ZipEntry) :
    ∀ r ∈ zipRecords zp es, r.source_path = zp ∧ r.source_type = "zip" := by
  intro r hr
  simp only [zipRecords] at hr
  obtain ⟨e, _, hre⟩ := List.mem_filterMap.mp hr
  by_cases hext : lowerStr (path_suffix e.filename) ∈ IMAGE_EXTS
  · rw [if_pos hext] at hre
    obtain ⟨h, _, hrow⟩ := Option.map_eq_some'.mp hre
    subst hrow
    exact ⟨rfl, rfl⟩
  · rw [if_neg hext] at hre
    exact Option.noConfusion hre

theorem folderRecords_source (sep folder : String) (fs : List FileEntry) :
    ∀ r ∈ folderRecords sep folder fs, r.source_path = folder ∧ r.source_type = "folder" := by
  intro r hr
  simp only [folderRecords] at hr
  obtain ⟨f, _, hrf⟩ := List.mem_filterMap.mp hr
  by_cases hk : keepFile f
  · rw [if_pos hk] at hrf
    obtain ⟨h, _, hrow⟩ := Option.map_eq_some'.mp hrf
    subst hrow
    exact ⟨rfl, rfl⟩
  · rw [if_neg hk] at hrf
    exact Option.noConfusion hrf

/-- C3 counterexample: the claim quantifies over any index run after the
first, but the standalone indexer script appends without clearing:
running the `main` of `index_zip.py` on source `a.zip` and then again on
source `b.zip` leaves the store holding records of both sources, so a
record of the discarded source `a.zip` is still stored (and still
eligible as a match). -/
theorem index_zip_main_keeps_stale_counterexample :
    (index_zip_main (SourceChoice.zip "b.zip" [ZipEntry.mk "y.jpg" (some 2)])
        (index_zip_main (SourceChoice.zip "a.zip" [ZipEntry.mk "x.jpg" (some 1)])
          [])).map Row.source_path = ["a.zip", "b.zip"] ∧
      ("a.zip" : String) ≠ "b.zip" := by
  constructor
  · decide
  · decide

/-- C3 amended: the tray app preserves the invariant — its change-source
path deletes the index database before re-indexing, so after a
change-source run every stored record belongs to the newly selected
source and no stale record of a discarded source remains; the standalone
indexer script, however, appends without clearing, so its re-runs can
leave records of more than one source in the store. -/
theorem change_source_only_new_source (ty p : String) (zs : List ZipEntry)
    (sep : String) (fs : List FileEntry) (st : List Row) :
    ∀ r ∈ change_source ty p zs sep fs st, r.source_path = p := by
  intro r hr
  simp only [change_source, index_source, init_db] at hr
  by_cases hty : ty = "zip"
  · rw [if_pos hty] at hr
    simp only [index_zip, List.nil_append] at hr
    exact (zipRecords_source p zs r hr).1
  · rw [if_neg hty] at hr
    simp only [index_folder, List.nil_append] at hr
    exact (folderRecords_source sep p fs r hr).1

theorem change_source_only_new_source_witness :
    Row.mk "zip" "b.zip" "y.jpg" (natToHex16 2) ∈
        change_source "zip" "b.zip" [ZipEntry.mk "y.jpg" (some 2)] "/" []
          [Row.mk "zip" "a.zip" "x.jpg" (natToHex16 1)] ∧
      (Row.mk "zip" "b.zip" "y.jpg" (natToHex16 2)).source_path = "b.zip" :=
  ⟨by decide,
    change_source_only_new_source "zip" "b.zip" [ZipEntry.mk "y.jpg" (some 2)] "/"
      [] [Row.mk "zip" "a.zip" "x.jpg" (natToHex16 1)]
      (Row.mk "zip" "b.zip" "y.jpg" (natToHex16 2)) (by decide)⟩

/-- C10: the indexing entry point of the tray app dispatches only on
whether `source_type` is exactly the string `"zip"`: every other value —
misspellings and arbitrary strings included — takes the recursive folder
walk, and `"zip"` takes the ZIP branch. -/
theorem index_source_dispatch (ty p : String) (zs : List ZipEntry) (sep : String)
    (fs : List FileEntry) (st : List Row) (hty : ty ≠ "zip") :
    index_source ty p zs sep fs st = index_folder sep p fs (init_db st) ∧
      index_source "zip" p zs sep fs st = index_zip p zs (init_db st) := by
  constructor
  · unfold index_source
    rw [if_neg hty]
  · unfold index_source
    rw [if_pos rfl]

theorem index_source_dispatch_witness :
    ("Zip" : String) ≠ "zip" ∧
      (index_source "Zip" "p" [] "/" [] [] = index_folder "/" "p" [] (init_db []) ∧
        index_source "zip" "p" [] "/" [] [] = index_zip "p" [] (init_db [])) :=
  ⟨by decide, index_source_dispatch "Zip" "p" [] "/" [] [] (by decide)⟩

theorem applyOps_committed_of_truncated (rs : List Row) :
    ∀ (k : Nat) (c p : List Row), k < rs.length + 1 →
      (applyOps ((rs.map DBOp.insert ++ [DBOp.commit]).take k) (c, p)).1 = c := by
  induction rs with
  | nil =>
    intro k c p hk
    cases k with
    | zero => rfl
    | succ k => simp at hk
  | cons r rs ih =>
    intro k c p hk
    cases k with
    | zero => rfl
    | succ k =>
      rw [List.map_cons, List.cons_append, List.take_succ_cons]
      show (applyOps ((rs.map DBOp.insert ++ [DBOp.commit]).take k) (c, p ++ [r])).1 = c
      exact ih k c (p ++ [r]) (by simpa using Nat.lt_of_succ_lt_succ (by simpa using hk))

theorem applyOps_full_pass (rs : List Row) :
    ∀ c p : List Row,
      applyOps (rs.map DBOp.insert ++ [DBOp.commit]) (c, p) = (c ++ (p ++ rs), []) := by
  induction rs with
  | nil =>
    intro c p
    show (c ++ p, ([] : List Row)) = (c ++ (p ++ []), [])
    simp
  | cons r rs ih =>
    intro c p
    show applyOps (rs.map DBOp.insert ++ [DBOp.commit]) (c, p ++ [r]) =
      (c ++ (p ++ r :: rs), [])
    rw [ih]
    simp

/-- C8: the statement trace of one indexing pass is a run of `INSERT`s
followed by one final `conn.commit()`, so a pass that fails anywhere
before completion (its trace truncated before the commit) leaves the
committed store unchanged, and a completed pass publishes exactly its
batch — for both the ZIP pass and the folder pass. -/
theorem index_pass_all_or_none (zp : String) (entries : List ZipEntry)
    (sep folder : String) (files : List FileEntry) (store : List Row) (k : Nat) :
    (k < (zipOps zp entries).length →
      (applyOps ((zipOps zp entries).take k) (store, [])).1 = store) ∧
    (k < (folderOps sep folder files).length →
      (applyOps ((folderOps sep folder files).take k) (store, [])).1 = store) ∧
    applyOps (zipOps zp entries) (store, []) = (store ++ zipRecords zp entries, []) ∧
    applyOps (folderOps sep folder files) (store, []) =
      (store ++ folderRecords sep folder files, []) := by
  refine ⟨?_, ?_, ?_, ?_⟩
  · intro hk
    have hk2 : k < (zipRecords zp entries).length + 1 := by simpa [zipOps] using hk
    unfold zipOps
    exact applyOps_committed_of_truncated (zipRecords zp entries) k store [] hk2
  · intro hk
    have hk2 : k < (folderRecords sep folder files).length + 1 := by
      simpa [folderOps] using hk
    unfold folderOps
    exact applyOps_committed_of_truncated (folderRecords sep folder files) k store [] hk2
  · unfold zipOps
    rw [applyOps_full_pass]
    simp
  · unfold folderOps
    rw [applyOps_full_pass]
    simp

theorem index_pass_all_or_none_witness :
    1 < (zipOps "a.zip" [ZipEntry.mk "x.jpg" (some 1)]).length ∧
      (applyOps ((zipOps "a.zip" [ZipEntry.mk "x.jpg" (some 1)]).take 1)
        (([] : List Row), [])).1 = [] :=
  ⟨by decide,
    (index_pass_all_or_none "a.zip" [ZipEntry.mk "x.jpg" (some 1)] "/" "f" [] [] 1).1
      (by decide)⟩
